import Mathlib

/-!
Verification of the three-way quicksort in `src/quicksort.c` (ThreadedSort).

The C program sorts an array of `int` twice: once with a sequential
recursive quicksort (`quicksort`, lines 127-151) and once with a pthread
variant (`quicksort_threaded`, lines 166-206) that spawns one thread per
recursive call on the `less` and `more` partitions and counts every
invocation in a mutex-protected global `thread_count` (lines 17-18).
Both are built from a shared three-way `partition` (lines 50-75) and a
concatenating `merge` (lines 97-111).

Sequences of C `int` values are embedded as `List Int`; the dynamically
sized buffers the C code allocates are the lists themselves.  The global
thread counter is embedded by explicit state passing (the threaded sorter
takes and returns the counter value; the mutex makes the two concurrent
increments atomic, and the counter feeds back into no other computation,
so the final value is the same as if the increments were performed in
sequence, which is what the state-passing model computes).  Allocation
failure is embedded by an explicit oracle for the outcome of the `malloc`
calls.  The frame property (the input buffer is never written) is
embedded at the memory level by threading the input buffer through an
index-by-index model of the partition loop and of both sorters,
mirroring every read and write the C code performs.
-/

namespace ThreadedSort

/-- Three-way partition, from `partition` in src/quicksort.c lines 50-75.
The C loop (lines 62-66) walks the input left to right and appends each
element to one of three fresh buffers: `arr[i] < pivot` goes to `less`,
`arr[i] > pivot` (written `pivot < x` here) goes to `more`, everything
else to `equal`.  The result triple is `(less, equal, more)`;
left-to-right order inside each bucket is preserved, as in the C loop. -/
def partition (pivot : Int) : List Int → List Int × List Int × List Int
  | [] => ([], [], [])
  | x :: xs =>
    if x < pivot then
      (x :: (partition pivot xs).1, (partition pivot xs).2.1, (partition pivot xs).2.2)
    else if pivot < x then
      ((partition pivot xs).1, (partition pivot xs).2.1, x :: (partition pivot xs).2.2)
    else
      ((partition pivot xs).1, x :: (partition pivot xs).2.1, (partition pivot xs).2.2)

/-- Concatenating merge, from `merge` in src/quicksort.c lines 97-111:
copy `less`, then `equal`, then `more` into the destination, contiguous,
in that order.  The destination buffer is the returned list. -/
def merge (less equal more : List Int) : List Int :=
  less ++ equal ++ more

theorem partition_count (pivot a : Int) (l : List Int) :
    (partition pivot l).1.count a + (partition pivot l).2.1.count a +
      (partition pivot l).2.2.count a = l.count a := by
  induction l with
  | nil => simp [partition]
  | cons x xs ih =>
    simp only [partition]
    rcases lt_trichotomy x pivot with h | h | h
    · rw [if_pos h]
      simp only [List.count_cons]
      omega
    · rw [if_neg (by simp [h]), if_neg (by simp [h])]
      simp only [List.count_cons]
      omega
    · rw [if_neg (not_lt.mpr h.le), if_pos h]
      simp only [List.count_cons]
      omega

/-- The three buckets concatenated are a permutation of the input:
no element is lost or duplicated by the partition loop. -/
theorem partition_parts_perm (pivot : Int) (l : List Int) :
    ((partition pivot l).1 ++ (partition pivot l).2.1 ++ (partition pivot l).2.2).Perm l := by
  rw [List.perm_iff_count]
  intro a
  simp only [List.count_append]
  exact partition_count pivot a l

theorem partition_length_sum (pivot : Int) (l : List Int) :
    (partition pivot l).1.length + (partition pivot l).2.1.length +
      (partition pivot l).2.2.length = l.length := by
  have h := (partition_parts_perm pivot l).length_eq
  simp only [List.length_append] at h
  omega

/-- Every element the loop puts in `less` came from the input and is
strictly below the pivot (line 63 of the source). -/
theorem partition_mem_less (pivot a : Int) (l : List Int) :
    a ∈ (partition pivot l).1 → a ∈ l ∧ a < pivot := by
  induction l with
  | nil => simp [partition]
  | cons x xs ih =>
    simp only [partition]
    rcases lt_trichotomy x pivot with h | h | h
    · rw [if_pos h]
      intro hmem
      rcases List.mem_cons.mp hmem with rfl | hmem
      · exact ⟨List.mem_cons_self _ _, h⟩
      · exact ⟨List.mem_cons_of_mem _ (ih hmem).1, (ih hmem).2⟩
    · rw [if_neg (by simp [h]), if_neg (by simp [h])]
      intro hmem
      exact ⟨List.mem_cons_of_mem _ (ih hmem).1, (ih hmem).2⟩
    · rw [if_neg (not_lt.mpr h.le), if_pos h]
      intro hmem
      exact ⟨List.mem_cons_of_mem _ (ih hmem).1, (ih hmem).2⟩

/-- Every element the loop puts in `more` came from the input and is
strictly above the pivot (line 64 of the source). -/
theorem partition_mem_more (pivot a : Int) (l : List Int) :
    a ∈ (partition pivot l).2.2 → a ∈ l ∧ pivot < a := by
  induction l with
  | nil => simp [partition]
  | cons x xs ih =>
    simp only [partition]
    rcases lt_trichotomy x pivot with h | h | h
    · rw [if_pos h]
      intro hmem
      exact ⟨List.mem_cons_of_mem _ (ih hmem).1, (ih hmem).2⟩
    · rw [if_neg (by simp [h]), if_neg (by simp [h])]
      intro hmem
      exact ⟨List.mem_cons_of_mem _ (ih hmem).1, (ih hmem).2⟩
    · rw [if_neg (not_lt.mpr h.le), if_pos h]
      intro hmem
      rcases List.mem_cons.mp hmem with rfl | hmem
      · exact ⟨List.mem_cons_self _ _, h⟩
      · exact ⟨List.mem_cons_of_mem _ (ih hmem).1, (ih hmem).2⟩

/-- Every element the loop puts in `equal` came from the input and equals
the pivot (line 65 of the source, the catch-all `else` branch). -/
theorem partition_mem_equal (pivot a : Int) (l : List Int) :
    a ∈ (partition pivot l).2.1 → a ∈ l ∧ a = pivot := by
  induction l with
  | nil => simp [partition]
  | cons x xs ih =>
    simp only [partition]
    rcases lt_trichotomy x pivot with h | h | h
    · rw [if_pos h]
      intro hmem
      exact ⟨List.mem_cons_of_mem _ (ih hmem).1, (ih hmem).2⟩
    · rw [if_neg (by simp [h]), if_neg (by simp [h])]
      intro hmem
      rcases List.mem_cons.mp hmem with rfl | hmem
      · exact ⟨List.mem_cons_self _ _, h⟩
      · exact ⟨List.mem_cons_of_mem _ (ih hmem).1, (ih hmem).2⟩
    · rw [if_neg (not_lt.mpr h.le), if_pos h]
      intro hmem
      exact ⟨List.mem_cons_of_mem _ (ih hmem).1, (ih hmem).2⟩

/-- Partitioning a nonempty list around its own head puts the head in the
`equal` bucket: the head fails both strict comparisons at lines 63-64. -/
theorem partition_cons_self (x : Int) (xs : List Int) :
    partition x (x :: xs) =
      ((partition x xs).1, x :: (partition x xs).2.1, (partition x xs).2.2) := by
  simp [partition]

theorem partition_less_length_lt (x : Int) (xs : List Int) :
    (partition x (x :: xs)).1.length < (x :: xs).length := by
  rw [partition_cons_self]
  have h := partition_length_sum x xs
  simp only [List.length_cons]
  omega

theorem partition_more_length_lt (x : Int) (xs : List Int) :
    (partition x (x :: xs)).2.2.length < (x :: xs).length := by
  rw [partition_cons_self]
  have h := partition_length_sum x xs
  simp only [List.length_cons]
  omega

/-- Sequential quicksort, from `quicksort` in src/quicksort.c lines
127-151.  An empty input returns immediately (line 128; the NULL return
value is modelled as the empty list, see `quicksortRet` for the
NULL/error distinction).  Otherwise the pivot is the first element
(line 130), the whole input (pivot included) is partitioned (line 134),
the `less` and `more` buckets are sorted recursively (lines 137-138) and
the three pieces are merged (line 141). -/
def quicksort : List Int → List Int
  | [] => []
  | x :: xs =>
    merge (quicksort (partition x (x :: xs)).1)
          ((partition x (x :: xs)).2.1)
          (quicksort (partition x (x :: xs)).2.2)
termination_by l => l.length
decreasing_by
  · exact partition_less_length_lt x xs
  · exact partition_more_length_lt x xs

/-- Threaded quicksort, from `quicksort_threaded` in src/quicksort.c
lines 166-206, with the global `thread_count` (lines 17-18) passed as
explicit state: the second argument is the counter value on entry, the
second component of the result is its value after the whole fork/join
tree below this invocation has completed.  Every invocation increments
the counter once at entry (lines 167-169), including those called on an
empty buffer, which return NULL right after (line 175).  The `less` and
`more` buckets are sorted by two spawned threads (lines 189-190) which
are both joined (lines 194-195) before the merge (line 198); the two
concurrent increments are serialized by the mutex and the counter value
influences nothing else, so their combined effect equals running the two
children one after the other. -/
def quicksort_threaded : List Int → Nat → List Int × Nat
  | [], count => ([], count + 1)
  | x :: xs, count =>
    match quicksort_threaded (partition x (x :: xs)).1 (count + 1) with
    | (sorted_less, c2) =>
      match quicksort_threaded (partition x (x :: xs)).2.2 c2 with
      | (sorted_more, c3) =>
        (merge sorted_less ((partition x (x :: xs)).2.1) sorted_more, c3)
termination_by l _ => l.length
decreasing_by
  · exact partition_less_length_lt x xs
  · exact partition_more_length_lt x xs

theorem quicksort_nil : quicksort [] = [] := by
  simp [quicksort]

theorem quicksort_cons (x : Int) (xs : List Int) :
    quicksort (x :: xs) =
      merge (quicksort (partition x (x :: xs)).1)
            ((partition x (x :: xs)).2.1)
            (quicksort (partition x (x :: xs)).2.2) := by
  rw [quicksort]

/-- The output of the sequential sort is a permutation of its input. -/
theorem quicksort_perm : ∀ l : List Int, (quicksort l).Perm l
  | [] => by simp [quicksort_nil]
  | x :: xs => by
    rw [quicksort_cons, merge]
    have ihl := quicksort_perm (partition x (x :: xs)).1
    have ihm := quicksort_perm (partition x (x :: xs)).2.2
    exact ((ihl.append (List.Perm.refl _)).append ihm).trans (partition_parts_perm x (x :: xs))
termination_by l => l.length
decreasing_by
  · exact partition_less_length_lt x xs
  · exact partition_more_length_lt x xs

theorem sorted_append_iff {l₁ l₂ : List Int} :
    List.Sorted (· ≤ ·) (l₁ ++ l₂) ↔
      List.Sorted (· ≤ ·) l₁ ∧ List.Sorted (· ≤ ·) l₂ ∧ ∀ a ∈ l₁, ∀ b ∈ l₂, a ≤ b :=
  List.pairwise_append

theorem sorted_of_all_eq (p : Int) (l : List Int) (h : ∀ a ∈ l, a = p) :
    List.Sorted (· ≤ ·) l := by
  induction l with
  | nil => exact List.sorted_nil
  | cons x xs ih =>
    rw [List.sorted_cons]
    refine ⟨fun b hb => ?_, ih (fun a ha => h a (List.mem_cons_of_mem x ha))⟩
    rw [h x (List.mem_cons_self x xs), h b (List.mem_cons_of_mem x hb)]

/-- The output of the sequential sort is sorted in non-descending order. -/
theorem quicksort_sorted : ∀ l : List Int, List.Sorted (· ≤ ·) (quicksort l)
  | [] => by
    rw [quicksort_nil]
    exact List.sorted_nil
  | x :: xs => by
    rw [quicksort_cons, merge, List.append_assoc]
    have ihl := quicksort_sorted (partition x (x :: xs)).1
    have ihm := quicksort_sorted (partition x (x :: xs)).2.2
    rw [sorted_append_iff]
    refine ⟨ihl, ?_, ?_⟩
    · rw [sorted_append_iff]
      refine ⟨sorted_of_all_eq x _ (fun a ha => (partition_mem_equal x a _ ha).2), ihm, ?_⟩
      intro a ha b hb
      have hae : a = x := (partition_mem_equal x a _ ha).2
      have hbm : x < b :=
        (partition_mem_more x b _ ((quicksort_perm _).mem_iff.mp hb)).2
      rw [hae]
      exact hbm.le
    · intro a ha b hb
      have hal : a < x :=
        (partition_mem_less x a _ ((quicksort_perm _).mem_iff.mp ha)).2
      rcases List.mem_append.mp hb with hbe | hbm
      · have hbx : b = x := (partition_mem_equal x b _ hbe).2
        rw [hbx]
        exact hal.le
      · have hxb : x < b :=
          (partition_mem_more x b _ ((quicksort_perm _).mem_iff.mp hbm)).2
        exact (hal.trans hxb).le
termination_by l => l.length
decreasing_by
  · exact partition_less_length_lt x xs
  · exact partition_more_length_lt x xs

/-- Allocation-aware view of `partition` (src/quicksort.c lines 50-75).
`okLess`, `okMore`, `okEqual` are the outcomes of the three `malloc`
calls at lines 52-54, in source order (`less_arr`, `more_arr`,
`equal_arr`); all three calls are made unconditionally before the check
at line 56.  On success the function fills the buffers as `partition`
does.  When any `malloc` fails the source prints a message and returns
-1 (lines 57-58) without calling `free` on anything, so the
`Except.error` payload records how many successfully allocated buffers
are still allocated — i.e. leaked — at the moment the error is
returned. -/
def partitionE (okLess okMore okEqual : Bool) (pivot : Int) (l : List Int) :
    Except Nat (List Int × List Int × List Int) :=
  if okLess && okMore && okEqual then Except.ok (partition pivot l)
  else
    Except.error ((if okLess then 1 else 0) + (if okMore then 1 else 0) +
      (if okEqual then 1 else 0))

/-- The pointer value `quicksort` returns to its caller
(src/quicksort.c lines 127-151), with `none` standing for NULL.  A
size-0 input returns NULL at line 128; a partition allocation failure
returns NULL at line 135; otherwise the returned pointer holds the
sorted data.  `allocOk = true` models a run in which every `malloc`
succeeds; `allocOk = false` models a run in which the very first
`malloc` (line 52, reached through the top-level call's partition at
line 134) fails, so the top-level call returns NULL before any
recursion. -/
def quicksortRet (allocOk : Bool) (l : List Int) : Option (List Int) :=
  match l with
  | [] => none
  | _ :: _ => if allocOk then some (quicksort l) else none

/-- Memory-level model of the partition loop (src/quicksort.c lines
61-66).  The state carries the input buffer `arr` together with the
three freshly allocated output buffers; iteration `i` reads `arr[i]`
(the loop's only access to `arr`) and appends it to exactly one output
buffer.  The input buffer is returned as the loop leaves it, so that
writes to it — if the code performed any — would be visible in the
result. -/
def partitionMem (pivot : Int) (arr : Array Int) :
    Nat → Array Int → Array Int → Array Int →
    Array Int × Array Int × Array Int × Array Int
  | i, less_arr, more_arr, equal_arr =>
    if h : i < arr.size then
      if arr[i] < pivot then
        partitionMem pivot arr (i + 1) (less_arr.push arr[i]) more_arr equal_arr
      else if pivot < arr[i] then
        partitionMem pivot arr (i + 1) less_arr (more_arr.push arr[i]) equal_arr
      else
        partitionMem pivot arr (i + 1) less_arr more_arr (equal_arr.push arr[i])
    else (arr, less_arr, more_arr, equal_arr)
termination_by i _ _ _ => arr.size - i
decreasing_by
  · omega
  · omega
  · omega

theorem partitionMem_spec (pivot : Int) (arr : Array Int) (i : Nat)
    (lb mb eb : Array Int) :
    (partitionMem pivot arr i lb mb eb).1 = arr ∧
    (partitionMem pivot arr i lb mb eb).2.1.toList
      = lb.toList ++ (partition pivot (arr.toList.drop i)).1 ∧
    (partitionMem pivot arr i lb mb eb).2.2.1.toList
      = mb.toList ++ (partition pivot (arr.toList.drop i)).2.2 ∧
    (partitionMem pivot arr i lb mb eb).2.2.2.toList
      = eb.toList ++ (partition pivot (arr.toList.drop i)).2.1 := by
  rcases Nat.lt_or_ge i arr.size with h | h
  · have hi : i < arr.toList.length := by simpa using h
    have hdrop : arr.toList.drop i = arr[i] :: arr.toList.drop (i + 1) := by
      rw [List.drop_eq_getElem_cons hi, Array.getElem_toList]
    rw [partitionMem, dif_pos h, hdrop]
    rcases lt_trichotomy arr[i] pivot with hc | hc | hc
    · have ih := partitionMem_spec pivot arr (i + 1) (lb.push arr[i]) mb eb
      rw [if_pos hc]
      simp only [partition, if_pos hc]
      refine ⟨ih.1, ?_, ih.2.2.1, ih.2.2.2⟩
      rw [ih.2.1, Array.push_toList, List.append_assoc, List.singleton_append]
    · have ih := partitionMem_spec pivot arr (i + 1) lb mb (eb.push arr[i])
      rw [if_neg (by simp [hc]), if_neg (by simp [hc])]
      simp only [partition, if_neg (by simp [hc] : ¬ arr[i] < pivot),
        if_neg (by simp [hc] : ¬ pivot < arr[i])]
      refine ⟨ih.1, ih.2.1, ih.2.2.1, ?_⟩
      rw [ih.2.2.2, Array.push_toList, List.append_assoc, List.singleton_append]
    · have ih := partitionMem_spec pivot arr (i + 1) lb (mb.push arr[i]) eb
      rw [if_neg (not_lt.mpr hc.le), if_pos hc]
      simp only [partition, if_neg (not_lt.mpr hc.le), if_pos hc]
      refine ⟨ih.1, ih.2.1, ?_, ih.2.2.2⟩
      rw [ih.2.2.1, Array.push_toList, List.append_assoc, List.singleton_append]
  · have hdrop : arr.toList.drop i = [] := by
      apply List.drop_eq_nil_of_le
      simpa using h
    rw [partitionMem, dif_neg (not_lt.mpr h), hdrop]
    simp [partition]
termination_by arr.size - i
decreasing_by
  · omega
  · omega
  · omega

theorem partitionMem_top (pivot : Int) (arr : Array Int) :
    (partitionMem pivot arr 0 #[] #[] #[]).1 = arr ∧
    (partitionMem pivot arr 0 #[] #[] #[]).2.1.toList
      = (partition pivot arr.toList).1 ∧
    (partitionMem pivot arr 0 #[] #[] #[]).2.2.1.toList
      = (partition pivot arr.toList).2.2 ∧
    (partitionMem pivot arr 0 #[] #[] #[]).2.2.2.toList
      = (partition pivot arr.toList).2.1 := by
  have h := partitionMem_spec pivot arr 0 #[] #[] #[]
  simpa using h

theorem toList_eq_head_cons (arr : Array Int) (h : 0 < arr.size) :
    arr.toList = arr[0] :: arr.toList.drop 1 := by
  have h0 : 0 < arr.toList.length := by simpa using h
  have hd := List.drop_eq_getElem_cons h0
  rw [List.drop_zero, Array.getElem_toList] at hd
  exact hd

theorem partitionMem_less_size (arr : Array Int) (h : 0 < arr.size) :
    (partitionMem arr[0] arr 0 #[] #[] #[]).2.1.size < arr.size := by
  have hspec := (partitionMem_top arr[0] arr).2.1
  have hsize : (partitionMem arr[0] arr 0 #[] #[] #[]).2.1.size
      = (partition arr[0] arr.toList).1.length := by
    rw [← Array.length_toList, hspec]
  rw [hsize, ← Array.length_toList, toList_eq_head_cons arr h]
  exact partition_less_length_lt _ _

theorem partitionMem_more_size (arr : Array Int) (h : 0 < arr.size) :
    (partitionMem arr[0] arr 0 #[] #[] #[]).2.2.1.size < arr.size := by
  have hspec := (partitionMem_top arr[0] arr).2.2.1
  have hsize : (partitionMem arr[0] arr 0 #[] #[] #[]).2.2.1.size
      = (partition arr[0] arr.toList).2.2.length := by
    rw [← Array.length_toList, hspec]
  rw [hsize, ← Array.length_toList, toList_eq_head_cons arr h]
  exact partition_more_length_lt _ _

/-- Memory-level model of the sequential `quicksort` (src/quicksort.c
lines 127-151): the first component of the result is the caller's input
buffer exactly as the call leaves it; the second is the sorted output.
The input buffer is touched only by the partition loop (line 134, a
pure read per `partitionMem`); the recursive calls receive the freshly
allocated `less`/`more` buffers (lines 137-138), never the input. -/
def quicksortMem (arr : Array Int) : Array Int × List Int :=
  if h : 0 < arr.size then
    ((partitionMem arr[0] arr 0 #[] #[] #[]).1,
     merge (quicksortMem (partitionMem arr[0] arr 0 #[] #[] #[]).2.1).2
           ((partitionMem arr[0] arr 0 #[] #[] #[]).2.2.2.toList)
           (quicksortMem (partitionMem arr[0] arr 0 #[] #[] #[]).2.2.1).2)
  else (arr, [])
termination_by arr.size
decreasing_by
  · exact partitionMem_less_size arr h
  · exact partitionMem_more_size arr h

/-- Memory-level model of `quicksort_threaded` (src/quicksort.c lines
166-206): same access pattern to the caller's buffer as the sequential
sorter — the counter increment (lines 167-169) touches only the global
counter, the partition loop only reads the input, and the two spawned
threads (lines 189-190) receive the freshly allocated buffers.  Result:
(input buffer as left by the call, sorted output, counter after join). -/
def quicksortMemT (arr : Array Int) (count : Nat) : Array Int × List Int × Nat :=
  if h : 0 < arr.size then
    match quicksortMemT (partitionMem arr[0] arr 0 #[] #[] #[]).2.1 (count + 1) with
    | (_, sorted_less, c2) =>
      match quicksortMemT (partitionMem arr[0] arr 0 #[] #[] #[]).2.2.1 c2 with
      | (_, sorted_more, c3) =>
        ((partitionMem arr[0] arr 0 #[] #[] #[]).1,
         merge sorted_less ((partitionMem arr[0] arr 0 #[] #[] #[]).2.2.2.toList)
           sorted_more,
         c3)
  else (arr, [], count + 1)
termination_by arr.size
decreasing_by
  · exact partitionMem_less_size arr h
  · exact partitionMem_more_size arr h

theorem size_zero_toList {arr : Array Int} (h : ¬ 0 < arr.size) : arr.toList = [] := by
  have hz : arr.toList.length = 0 := by
    have := Nat.eq_zero_of_not_pos h
    simpa using this
  exact List.eq_nil_of_length_eq_zero hz

theorem quicksortMem_spec : ∀ arr : Array Int,
    (quicksortMem arr).1 = arr ∧ (quicksortMem arr).2 = quicksort arr.toList
  | arr => by
    by_cases h : 0 < arr.size
    · obtain ⟨h1, h2, h3, h4⟩ := partitionMem_top arr[0] arr
      have ihl := quicksortMem_spec (partitionMem arr[0] arr 0 #[] #[] #[]).2.1
      have ihm := quicksortMem_spec (partitionMem arr[0] arr 0 #[] #[] #[]).2.2.1
      rw [quicksortMem, dif_pos h]
      refine ⟨h1, ?_⟩
      rw [ihl.2, ihm.2, h2, h3, h4, toList_eq_head_cons arr h, quicksort_cons]
    · rw [quicksortMem, dif_neg h, size_zero_toList h, quicksort_nil]
      exact ⟨rfl, rfl⟩
termination_by arr => arr.size
decreasing_by
  · exact partitionMem_less_size arr h
  · exact partitionMem_more_size arr h

theorem quicksortMemT_spec : ∀ (arr : Array Int) (count : Nat),
    (quicksortMemT arr count).1 = arr ∧
    (quicksortMemT arr count).2.1 = quicksort arr.toList
  | arr, count => by
    by_cases h : 0 < arr.size
    · obtain ⟨h1, h2, h3, h4⟩ := partitionMem_top arr[0] arr
      have ihl := quicksortMemT_spec (partitionMem arr[0] arr 0 #[] #[] #[]).2.1 (count + 1)
      rcases hl : quicksortMemT (partitionMem arr[0] arr 0 #[] #[] #[]).2.1 (count + 1)
        with ⟨bl, sl, c2⟩
      have ihm := quicksortMemT_spec (partitionMem arr[0] arr 0 #[] #[] #[]).2.2.1 c2
      rcases hm : quicksortMemT (partitionMem arr[0] arr 0 #[] #[] #[]).2.2.1 c2
        with ⟨bm, sm, c3⟩
      rw [hl] at ihl
      rw [hm] at ihm
      rw [quicksortMemT, dif_pos h, hl]
      dsimp only
      rw [hm]
      dsimp only
      refine ⟨h1, ?_⟩
      have hsl : sl = quicksort (partition arr[0] arr.toList).1 := by
        have := ihl.2
        rw [h2] at this
        exact this
      have hsm : sm = quicksort (partition arr[0] arr.toList).2.2 := by
        have := ihm.2
        rw [h3] at this
        exact this
      show merge sl ((partitionMem arr[0] arr 0 #[] #[] #[]).2.2.2.toList) sm
          = quicksort arr.toList
      rw [hsl, hsm, h4, toList_eq_head_cons arr h, quicksort_cons]
    · rw [quicksortMemT, dif_neg h, size_zero_toList h, quicksort_nil]
      exact ⟨rfl, rfl⟩
termination_by arr _ => arr.size
decreasing_by
  · exact partitionMem_less_size arr h
  · exact partitionMem_more_size arr h

theorem sorted_getD_mono {l : List Int} (hs : List.Sorted (· ≤ ·) l) {i j : Nat}
    (hij : i < j) (hj : j < l.length) : l.getD i 0 ≤ l.getD j 0 := by
  have hi : i < l.length := lt_trans hij hj
  simp only [List.getD_eq_getElem?_getD, List.getElem?_eq_getElem hi,
    List.getElem?_eq_getElem hj, Option.getD_some]
  exact hs.rel_get_of_lt (Fin.mk_lt_mk.mpr hij)

theorem quicksort_threaded_fst : ∀ (l : List Int) (count : Nat),
    (quicksort_threaded l count).1 = quicksort l
  | [], count => by simp [quicksort_threaded, quicksort_nil]
  | x :: xs, count => by
    rcases hl : quicksort_threaded (partition x (x :: xs)).1 (count + 1) with ⟨sl, c2⟩
    rcases hm : quicksort_threaded (partition x (x :: xs)).2.2 c2 with ⟨sm, c3⟩
    have ihl : sl = quicksort (partition x (x :: xs)).1 := by
      have := quicksort_threaded_fst (partition x (x :: xs)).1 (count + 1)
      rw [hl] at this
      exact this
    have ihm : sm = quicksort (partition x (x :: xs)).2.2 := by
      have := quicksort_threaded_fst (partition x (x :: xs)).2.2 c2
      rw [hm] at this
      exact this
    rw [quicksort_threaded, hl]
    dsimp only
    rw [hm]
    dsimp only
    rw [quicksort_cons, ihl, ihm]
termination_by l _ => l.length
decreasing_by
  · exact partition_less_length_lt x xs
  · exact partition_more_length_lt x xs

/-! ## The claims -/

/-- C1: for every input sequence, the sequential `quicksort` returns a
permutation of the input (same multiset, hence same length) that is in
non-descending order: at any two positions `i < j` of the output, the
element at `i` is at most the element at `j`. -/
theorem quicksort_output_sorted_permutation (l : List Int) :
    (quicksort l).Perm l ∧ (quicksort l).length = l.length ∧
    ∀ i j : Nat, i < j → j < (quicksort l).length →
      (quicksort l).getD i 0 ≤ (quicksort l).getD j 0 :=
  ⟨quicksort_perm l, (quicksort_perm l).length_eq,
    fun _ _ hij hj => sorted_getD_mono (quicksort_sorted l) hij hj⟩

/-- C2: on every input and every starting value of the thread counter,
the concurrent sorter `quicksort_threaded` produces exactly the same
output sequence as the sequential `quicksort`. -/
theorem concurrent_sorter_equals_sequential (l : List Int) (count : Nat) :
    (quicksort_threaded l count).1 = quicksort l :=
  quicksort_threaded_fst l count

/-- C3: partitioning any sequence around any pivot puts only elements
strictly below the pivot in `less`, only elements equal to the pivot in
`equal`, only elements strictly above it in `more`; the three buckets
concatenated are a permutation of the input (every input element lands
in exactly one bucket, with multiplicity), and the three sizes sum to
the input size. -/
theorem partition_three_way_invariant (pivot : Int) (l : List Int) :
    (∀ a ∈ (partition pivot l).1, a < pivot) ∧
    (∀ a ∈ (partition pivot l).2.1, a = pivot) ∧
    (∀ a ∈ (partition pivot l).2.2, pivot < a) ∧
    ((partition pivot l).1 ++ (partition pivot l).2.1 ++
      (partition pivot l).2.2).Perm l ∧
    (partition pivot l).1.length + (partition pivot l).2.1.length +
      (partition pivot l).2.2.length = l.length :=
  ⟨fun a ha => (partition_mem_less pivot a l ha).2,
   fun a ha => (partition_mem_equal pivot a l ha).2,
   fun a ha => (partition_mem_more pivot a l ha).2,
   partition_parts_perm pivot l,
   partition_length_sum pivot l⟩

/-- C4 counterexample: sorting the single-element sequence `[5]` with
the concurrent sorter leaves the task counter at 3, not 1: the
top-level invocation increments it, and so do the two invocations
spawned on the empty `less` and `more` partitions, because the source
increments the counter (lines 167-169) before the size-0 early return
(line 175). -/
theorem threaded_singleton_counter_not_one :
    ¬ ((quicksort_threaded [(5 : Int)] 0).2 = 1) := by
  simp [quicksort_threaded, partition, merge]

/-- C4 amended: for a single-element input the concurrent sorter
returns that same element, and after the top-level task has fully
joined the shared task counter equals exactly 3 — one increment for the
top-level invocation and one for each of the two tasks spawned on the
empty `less` and `more` partitions, every invocation (including the
size-0 ones) incrementing the counter exactly once on entry. -/
theorem threaded_singleton_result_and_counter (x : Int) :
    quicksort_threaded [x] 0 = ([x], 3) := by
  simp [quicksort_threaded, partition, merge]

/-- C5 counterexample: the value the sequential sorter returns for the
empty sequence is NULL (line 128 of the source), the very same value it
returns when the partition's allocation fails on a nonempty input
(line 135), so the empty-input result is not a success value
distinguishable from an error. -/
theorem empty_result_equals_error_return :
    quicksortRet true [] = quicksortRet false [1] ∧ quicksortRet false [1] = none :=
  ⟨rfl, rfl⟩

/-- C5 amended: sorting an empty sequence returns NULL for the
sequential sorter; this stands for the zero-length output (the sorted
content of an empty input is the empty sequence), but it is the same
sentinel value that signals allocation failure, so it is not
distinguishable from an error by the return value alone. -/
theorem empty_input_returns_null_empty :
    quicksortRet true [] = none ∧ quicksort [] = [] :=
  ⟨rfl, quicksort_nil⟩

/-- C6: at the failing input where the `malloc` for `less_arr` and
`equal_arr` succeed and the one for `more_arr` fails, `partition`
reports the allocation failure (returns -1), but the two successfully
allocated buffers are NOT released before the error propagates: the
error path (lines 56-59 of the source) contains no `free`, so both
buffers leak — the error value records 2 still-allocated buffers where
the claim requires 0. -/
theorem partition_alloc_failure_leaks :
    partitionE true false true 0 [1, 2] = Except.error 2 := rfl

/-- C7: merging three sequences into a destination of exactly the total
length writes `less` first, then `equal`, then `more`, contiguously
with no gaps: position `i` of the destination holds `less[i]` for
`i < |less|`, position `|less|+i` holds `equal[i]` for `i < |equal|`,
and position `|less|+|equal|+i` holds `more[i]` for `i < |more|`. -/
theorem merge_concatenates_in_order (less equal more : List Int) :
    (merge less equal more).length = less.length + equal.length + more.length ∧
    (∀ i, i < less.length → (merge less equal more).getD i 0 = less.getD i 0) ∧
    (∀ i, i < equal.length →
      (merge less equal more).getD (less.length + i) 0 = equal.getD i 0) ∧
    (∀ i, i < more.length →
      (merge less equal more).getD (less.length + equal.length + i) 0
        = more.getD i 0) := by
  refine ⟨by simp [merge]; omega, ?_, ?_, ?_⟩
  · intro i hi
    have hi2 : i < (less ++ equal).length := by
      simp only [List.length_append]
      omega
    simp only [merge, List.getD_eq_getElem?_getD]
    rw [List.getElem?_append_left hi2, List.getElem?_append_left hi]
  · intro i hi
    have hi2 : less.length + i < (less ++ equal).length := by
      simp only [List.length_append]
      omega
    simp only [merge, List.getD_eq_getElem?_getD]
    rw [List.getElem?_append_left hi2,
        List.getElem?_append_right (Nat.le_add_right less.length i),
        Nat.add_sub_cancel_left]
  · intro i hi
    have hge : (less ++ equal).length ≤ less.length + equal.length + i := by
      simp only [List.length_append]
      omega
    have hidx : less.length + equal.length + i - (less ++ equal).length = i := by
      simp only [List.length_append]
      omega
    simp only [merge, List.getD_eq_getElem?_getD]
    rw [List.getElem?_append_right hge, hidx]

/-- C8: neither sorter mutates its input: the memory-level models of
`quicksort` and `quicksort_threaded`, which mirror every access the C
code makes to the caller's buffer, hand that buffer back exactly as it
was, while computing the sorted output (each recursive step works on
the freshly allocated `less`/`equal`/`more` buffers instead of
modifying the input). -/
theorem sorters_leave_input_unchanged (arr : Array Int) (count : Nat) :
    (quicksortMem arr).1 = arr ∧ (quicksortMemT arr count).1 = arr ∧
    (quicksortMem arr).2 = quicksort arr.toList ∧
    (quicksortMemT arr count).2.1 = quicksort arr.toList :=
  ⟨(quicksortMem_spec arr).1, (quicksortMemT_spec arr count).1,
   (quicksortMem_spec arr).2, (quicksortMemT_spec arr count).2⟩

/-- C9: sorting is idempotent — on an input that is already in
non-descending order, the sequential sorter returns the input itself,
element for element. -/
theorem quicksort_idempotent (l : List Int) (h : List.Sorted (· ≤ ·) l) :
    quicksort l = l :=
  List.eq_of_perm_of_sorted (quicksort_perm l) (quicksort_sorted l) h

/-- Witness for C9 at the concrete sorted input `[1, 2, 2, 5]`. -/
theorem quicksort_idempotent_witness :
    List.Sorted (· ≤ ·) [(1 : Int), 2, 2, 5] ∧
    quicksort [(1 : Int), 2, 2, 5] = [1, 2, 2, 5] :=
  ⟨by decide, quicksort_idempotent [(1 : Int), 2, 2, 5] (by decide)⟩

/-- C10: the sequential sort terminates on every finite input — on any
nonempty sequence the pivot (the first element) lands in the `equal`
bucket, so both the `less` and the `more` bucket, the arguments of the
two recursive calls, are strictly shorter than the input. -/
theorem quicksort_recursive_calls_decrease (x : Int) (xs : List Int) :
    x ∈ (partition x (x :: xs)).2.1 ∧
    (partition x (x :: xs)).1.length < (x :: xs).length ∧
    (partition x (x :: xs)).2.2.length < (x :: xs).length :=
  ⟨by rw [partition_cons_self]; exact List.mem_cons_self x _,
   partition_less_length_lt x xs,
   partition_more_length_lt x xs⟩

end ThreadedSort
